import Mathlib

/-!
Verification development for the glowmarkt metering-data export pipeline
(`src/lib.rs`, `src/main.rs`).

Shallow embedding conventions:
* `OffsetDateTime` values are embedded as `Int` unix timestamps (seconds);
  duration addition on them is plain integer addition.
* Rust `f32`/`f64` reading and field values are embedded as `ℚ`; the only
  numeric operation the modelled code performs on them is comparison with
  `0.0`.
* Fallible operations return `Except Error _`; a Rust panic (`unwrap`) is
  embedded as `Option` with `none` for the panic.
* `BTreeMap<OffsetDateTime, Vec<Measurement>>` is embedded as an association
  list sorted by strictly ascending key, with operations mirroring the
  `BTreeMap` entry/get/remove calls used by the source.
* The remote API is an oracle (`Api`): a record of the four calls the
  pipeline makes, each returning the value the remote side would produce.
  The pipeline additionally threads an explicit `log` of the resource ids
  for which a reading fetch was issued, so that "no fetch is issued"
  claims are expressible.

Record fields of the source structs that the modelled code never touches
(descriptions, activity flags, created/updated datestamps, ...) are elided.
-/

namespace Glowmarkt

/-- Kinds of errors of the library (`ErrorKind` in the source). -/
inductive ErrorKind where
  | apiError
  | notAuthenticated
  | unknownEntity
deriving DecidableEq, Repr

/-- The library error type: a kind plus a message. -/
structure Error where
  kind : ErrorKind
  message : String
deriving DecidableEq, Repr

/-- `ReadingPeriod` from `src/lib.rs`. -/
inductive ReadingPeriod where
  | halfHour
  | hour
  | day
  | week
deriving DecidableEq, Repr

/-- A sensor entry of a device (`DeviceSensor` in `src/lib.rs`). -/
structure DeviceSensor where
  protocol_id : String
  resource_id : String
  resource_type_id : String
deriving DecidableEq, Repr

/-- `DeviceProtocol` from `src/lib.rs`: protocol name and sensor list. -/
structure DeviceProtocol where
  protocol : String
  sensors : List DeviceSensor
deriving DecidableEq, Repr

/-- `Device` from `src/lib.rs` (fields the pipeline reads). -/
structure Device where
  id : String
  hardware_id : String
  protocol : DeviceProtocol
deriving DecidableEq, Repr

/-- `Resource` from `src/lib.rs` (fields the pipeline reads). -/
structure Resource where
  id : String
  classifier : Option String
deriving DecidableEq, Repr

/-- `Reading` from `src/lib.rs`: interval start, interval end, value. -/
structure Reading where
  start : Int
  «end» : Int
  value : ℚ
deriving DecidableEq, Repr

/-- Smallest unix timestamp representable as an `OffsetDateTime` of the
`time` crate with default features (`-9999-01-01T00:00:00Z`). -/
def unixTsMin : Int := -377705203200

/-- Largest unix timestamp representable as an `OffsetDateTime` of the
`time` crate with default features (`9999-12-31T23:59:59Z`). -/
def unixTsMax : Int := 253402300799

/-- `OffsetDateTime::from_unix_timestamp`: succeeds exactly on timestamps in
the representable range; `none` embeds the out-of-range error that the
source turns into a panic via `.unwrap()`. -/
def from_unix_timestamp (t : Int) : Option Int :=
  if unixTsMin ≤ t ∧ t ≤ unixTsMax then some t else none

/-- `OffsetDateTime + Duration`: the `time` crate implements `Add` as
`self.checked_add(duration).expect("resulting value is out of range")`,
panicking when the sum leaves the representable range; `none` embeds that
panic. -/
def odt_add (t len : Int) : Option Int :=
  if unixTsMin ≤ t + len ∧ t + len ≤ unixTsMax then some (t + len) else none

/-- The per-arm `Duration` of the end-timestamp match in
`GlowmarktApi::readings` (`src/lib.rs:557-562`), in seconds:
`Duration::minutes(30)`, `Duration::hours(1)`, `Duration::days(1)`,
`Duration::weeks(1)`. -/
def periodDuration : ReadingPeriod → Int
  | ReadingPeriod.halfHour => 30 * 60
  | ReadingPeriod.hour => 60 * 60
  | ReadingPeriod.day => 86400
  | ReadingPeriod.week => 7 * 86400

/-- One step of the closure in `GlowmarktApi::readings` (`src/lib.rs:554-564`):
convert a remote `(timestamp, value)` tuple to a `Reading`. `none` embeds a
panic: either the `.unwrap()` on `from_unix_timestamp`, or the checked
addition inside `start + Duration::...` overflowing the representable
range. -/
def readingFromTuple (period : ReadingPeriod) (t : Int × ℚ) : Option Reading :=
  match from_unix_timestamp t.1 with
  | none => none
  | some start =>
    match odt_add start (periodDuration period) with
    | none => none
    | some e => some { start := start, «end» := e, value := t.2 }

/-- The conversion loop of `GlowmarktApi::readings` (`src/lib.rs:551-566`):
map `readingFromTuple` over the response data; any panic aborts the whole
conversion. -/
def readingsOfData (period : ReadingPeriod) :
    List (Int × ℚ) → Option (List Reading)
  | [] => some []
  | t :: rest =>
    match readingFromTuple period t, readingsOfData period rest with
    | some r, some rs => some (r :: rs)
    | _, _ => none

/-- A measurement record (`Measurement` of the `influx` module). Modelled
from the spec: the `influx` module itself is not under `src/`; §3 describes a
Measurement as a named record with a timestamp, an ordered list of tag
key/value pairs and field key/value pairs (field values floating-point,
embedded as `ℚ`). `Measurement::new` takes name, timestamp and tags and
starts with no fields; `add_field` appends one. -/
structure Measurement where
  name : String
  timestamp : Int
  tags : List (String × String)
  fields : List (String × ℚ)
deriving DecidableEq, Repr

/-- `Measurement::new(name, timestamp, tags)`: no fields yet. -/
def Measurement.new (name : String) (timestamp : Int)
    (tags : List (String × String)) : Measurement :=
  { name := name, timestamp := timestamp, tags := tags, fields := [] }

/-- `measurement.add_field(key, value)`: append one field pair. -/
def Measurement.add_field (m : Measurement) (key : String) (value : ℚ) :
    Measurement :=
  { m with fields := m.fields ++ [(key, value)] }

/-- Modelled from the spec: `field_for_classifier`'s fixed lookup table
(`influx` module, not under `src/`). §4.3: "a fixed lookup table maps known
classifier strings to fixed field names (e.g. electricity.consumption →
consumption, electricity.cost → cost)". Only the entries the spec names are
listed; the claims quantify over table membership, not its exact contents. -/
def classifierFieldTable : List (String × String) :=
  [("electricity.consumption", "consumption"), ("electricity.cost", "cost")]

/-- Modelled from the spec: `field_for_classifier` (`influx` module, not
under `src/`). §4.3: known classifiers map through the fixed table; "unknown
or absent classifiers map to a literal field name \"value\"". -/
def field_for_classifier : Option String → String
  | none => "value"
  | some c =>
    match classifierFieldTable.lookup c with
    | some f => f
    | none => "value"

/-- Modelled from the spec: `tags_for_device` (`influx` module, not under
`src/`). §4.3: "device-level tags capture device identifier and hardware
identifiers". -/
def tags_for_device (d : Device) : List (String × String) :=
  [("device", d.id), ("hardware", d.hardware_id)]

/-- Modelled from the spec: `tags_for_resource` (`influx` module, not under
`src/`). §4.3: "resource-level tags extend the device tag set with resource
identifier and classifier, without mutating the original device tag set". -/
def tags_for_resource (tags : List (String × String)) (r : Resource) :
    List (String × String) :=
  tags ++ [("resource", r.id)] ++
    (match r.classifier with
     | some c => [("classifier", c)]
     | none => [])

/-- The aggregation map `BTreeMap<OffsetDateTime, Vec<Measurement>>`:
an association list kept sorted by strictly ascending timestamp key. -/
abbrev AggMap := List (Int × List Measurement)

/-- `BTreeMap::get`: first (hence, on sorted maps, only) entry at the key. -/
def aggGet : AggMap → Int → Option (List Measurement)
  | [], _ => none
  | (k, vs) :: rest, j => if j = k then some vs else aggGet rest j

/-- `measurements.entry(k).or_default().push(v)`: append `v` to the bucket
at key `k`, creating the bucket (in key-sorted position) if absent. -/
def aggInsert : AggMap → Int → Measurement → AggMap
  | [], k, v => [(k, [v])]
  | (j, vs) :: rest, k, v =>
    if k < j then (k, [v]) :: (j, vs) :: rest
    else if k = j then (j, vs ++ [v]) :: rest
    else (j, vs) :: aggInsert rest k v

/-- `BTreeMap::remove`: drop the entry at the key. -/
def aggRemove (m : AggMap) (k : Int) : AggMap :=
  m.filter (fun p => p.1 != k)

/-- The map's key list. -/
def aggKeys (m : AggMap) : List Int := m.map Prod.fst

/-- The trailing-zero stripping loop of `influx` (`src/main.rs:219-231`),
translated statement by statement: collect the keys in descending order,
then for each key remove its bucket if every measurement's every field value
equals `0.0`. The source loop has no `break`: it visits every key. The
`.getD []` stands for the source's `.unwrap()`, which never fails there
because each visited key is a key of the original map and keys are visited
once; an absent key would make the bucket test vacuously true and the
removal a no-op, so the embedding agrees with the source on all reachable
states. -/
def strip (m : AggMap) : AggMap :=
  let timestamps : List Int := (aggKeys m).reverse
  timestamps.foldl
    (fun acc ts =>
      if ((aggGet acc ts).getD []).all
          (fun mm => mm.fields.all (fun f => f.2 == 0)) then
        aggRemove acc ts
      else acc)
    m

/-- The measurement built for one reading in `process_device`
(`src/main.rs:188-193`): `Measurement::new("glowmarkt", reading.start, tags)`
followed by `add_field(field_for_classifier(classifier), value)`. -/
def measurementFor (tags : List (String × String)) (resource : Resource)
    (reading : Reading) : Measurement :=
  (Measurement.new "glowmarkt" reading.start tags).add_field
    (field_for_classifier resource.classifier) reading.value

/-- The inner reading loop of `process_device` (`src/main.rs:187-199`):
insert the measurement of each reading at its start timestamp. -/
def addReadings (tags : List (String × String)) (resource : Resource)
    (readings : List Reading) (acc : AggMap) : AggMap :=
  readings.foldl
    (fun acc reading =>
      aggInsert acc reading.start (measurementFor tags resource reading))
    acc

/-- The sensor loop of `process_device` (`src/main.rs:180-201`). A sensor
whose resource id is not in the resource map is skipped; otherwise a reading
fetch is issued (recorded in `log`), a fetch error aborts with that error,
and on success the readings are folded into the aggregation map. -/
def processSensors (fetch : String → Except Error (List Reading))
    (resources : String → Option Resource)
    (devTags : List (String × String)) :
    List DeviceSensor → List String → AggMap →
      List String × Except Error AggMap
  | [], log, acc => (log, Except.ok acc)
  | sensor :: rest, log, acc =>
    match resources sensor.resource_id with
    | none => processSensors fetch resources devTags rest log acc
    | some resource =>
      match fetch resource.id with
      | Except.error e => (log ++ [resource.id], Except.error e)
      | Except.ok readings =>
        processSensors fetch resources devTags rest (log ++ [resource.id])
          (addReadings (tags_for_resource devTags resource) resource readings
            acc)

/-- `process_device` (`src/main.rs:170-204`): derive the device tags and run
the sensor loop. -/
def process_device (fetch : String → Except Error (List Reading))
    (resources : String → Option Resource) (device : Device)
    (log : List String) (acc : AggMap) :
    List String × Except Error AggMap :=
  processSensors fetch resources (tags_for_device device)
    device.protocol.sensors log acc

/-- The all-devices loop of `influx` (`src/main.rs:213-217`): process each
device in turn; the `?` on `process_device` propagates the first error and
stops the loop. -/
def gatherDevices (fetch : String → Except Error (List Reading))
    (resources : String → Option Resource) :
    List Device → List String → AggMap → List String × Except Error AggMap
  | [], log, acc => (log, Except.ok acc)
  | d :: rest, log, acc =>
    match process_device fetch resources d log acc with
    | (log1, Except.ok acc1) => gatherDevices fetch resources rest log1 acc1
    | (log1, Except.error e) => (log1, Except.error e)

/-- The remote API as an oracle: the four calls `influx` makes. The start
and end dates and the fixed `HalfHour` period of a run are folded into the
`getReadings` oracle, which maps a resource id to the readings (or error)
the remote side answers for that run's fixed window. -/
structure Api where
  getResources : Except Error (String → Option Resource)
  getDevice : String → Except Error (Option Device)
  getDevices : Except Error (List Device)
  getReadings : String → Except Error (List Reading)

/-- Modelled from the spec: the reserved characters of the line protocol's
tag values (§4.6: comma, space, equals sign) plus the escape character
itself. -/
def reservedChar (c : Char) : Bool :=
  c = ',' || c = ' ' || c = '=' || c = '\\'

/-- Modelled from the spec: the tag-value escaper of the line encoder
(`influx` module, not under `src/`). Each reserved character is preceded by
a backslash, so that a compliant parser recovers the value (§4.6 round-trip
requirement). -/
def escChars : List Char → List Char
  | [] => []
  | c :: rest =>
    if reservedChar c then '\\' :: c :: escChars rest
    else c :: escChars rest

/-- The compliant parser's unescaping: a backslash makes the next character
literal. -/
def unescChars : List Char → List Char
  | [] => []
  | c :: rest =>
    if c = '\\' then
      match rest with
      | [] => []
      | d :: rest2 => d :: unescChars rest2
    else c :: unescChars rest

/-- The compliant parser's splitter: cut the input at the first unescaped
occurrence of `delim`, treating a backslash as escaping the character after
it. Returns the segment before the first unescaped `delim` and the list of
the remaining segments (empty if `delim` never occurs unescaped). -/
def splitSeg (delim : Char) : List Char → List Char × List (List Char)
  | [] => ([], [])
  | c :: rest =>
    if c = '\\' then
      match rest with
      | [] => (['\\'], [])
      | d :: rest2 =>
        let s := splitSeg delim rest2
        ('\\' :: d :: s.1, s.2)
    else if c = delim then
      let s := splitSeg delim rest
      ([], s.1 :: s.2)
    else
      let s := splitSeg delim rest
      (c :: s.1, s.2)

/-- Modelled from the spec: encode one tag pair as `key=escaped(value)`
(§4.6). -/
def encodeTagPair (p : String × String) : List Char :=
  p.1.toList ++ '=' :: escChars p.2.toList

/-- Modelled from the spec: the comma-separated tag pair list of an encoded
line (§4.6). -/
def encodeTagsChars : List (String × String) → List Char
  | [] => []
  | [p] => encodeTagPair p
  | p :: q :: rest => encodeTagPair p ++ ',' :: encodeTagsChars (q :: rest)

/-- The compliant parser of one tag pair: key before the first unescaped
`=`, unescaped value after it. -/
def parseTagPair (l : List Char) : String × String :=
  match splitSeg '=' l with
  | (k, v :: _) => (String.mk k, String.mk (unescChars v))
  | (k, []) => (String.mk k, "")

/-- The compliant parser of a tag list: split on unescaped commas, parse
each pair. -/
def parseTags (l : List Char) : List (String × String) :=
  match splitSeg ',' l with
  | (s, ss) => (s :: ss).map parseTagPair

/-- Modelled from the spec: encode one field pair as `key=value` with the
value printed as a numeric literal (§4.6). -/
def encodeFieldPair (p : String × ℚ) : List Char :=
  p.1.toList ++ '=' :: (toString p.2).toList

/-- Modelled from the spec: the comma-separated field pair list of an
encoded line. -/
def encodeFieldsChars : List (String × ℚ) → List Char
  | [] => []
  | [p] => encodeFieldPair p
  | p :: q :: rest => encodeFieldPair p ++ ',' :: encodeFieldsChars (q :: rest)

/-- Modelled from the spec: the line encoder (`Display for Measurement` of
the `influx` module, not under `src/`). §4.6: series name, comma, tag pairs,
space, field pairs, space, timestamp. -/
def encodeMeasurement (m : Measurement) : String :=
  String.mk (m.name.toList ++ ',' :: encodeTagsChars m.tags ++
    ' ' :: encodeFieldsChars m.fields ++ ' ' :: (toString m.timestamp).toList)

/-- What an `influx` run prints: diagnostic lines on stderr, and on stdout
one encoded line per surviving measurement (`emitted` keeps the measurements
themselves in print order). -/
structure Output where
  stderrLines : List String
  emitted : List Measurement
  stdoutLines : List String
deriving DecidableEq, Repr

/-- The device-selection half of the `influx` subcommand
(`src/main.rs:206-217`): single-device mode resolves the requested id (an
unknown id prints a stderr message and leaves the aggregation empty, an
`ApiError` propagates); all-devices mode folds `process_device` over the
device list. Returns (fetch log, stderr lines, aggregation or error). -/
def gatherPhase (api : Api) (resources : String → Option Resource)
    (device : Option String) :
    List String × List String × Except Error AggMap :=
  match device with
  | some id =>
    match api.getDevice id with
    | Except.error e => ([], [], Except.error e)
    | Except.ok none =>
      ([], ["Error: Unknown device " ++ id], Except.ok [])
    | Except.ok (some d) =>
      let r := process_device api.getReadings resources d [] []
      (r.1, [], r.2)
  | none =>
    match api.getDevices with
    | Except.error e => ([], [], Except.error e)
    | Except.ok devices =>
      let r := gatherDevices api.getReadings resources devices [] []
      (r.1, [], r.2)

/-- The `influx` subcommand (`src/main.rs:157-240`), minus the date parsing
that precedes every claim-relevant step: fetch the resource map, run the
device-selection phase, then the stripping pass (unless `no_strip`,
`src/main.rs:219-231`) and the print loop (`src/main.rs:233-237`), one
stdout line per measurement in map iteration order. Returns the
reading-fetch log and either the propagated error (in which case nothing
was printed on stdout) or the run's output. -/
def influx (api : Api) (device : Option String) (no_strip : Bool) :
    List String × Except Error Output :=
  match api.getResources with
  | Except.error e => ([], Except.error e)
  | Except.ok resources =>
    match gatherPhase api resources device with
    | (log, _, Except.error e) => (log, Except.error e)
    | (log, errs, Except.ok measurements) =>
      let stripped := if no_strip then measurements else strip measurements
      let emitted := (stripped.map Prod.snd).flatten
      (log, Except.ok { stderrLines := errs, emitted := emitted,
                        stdoutLines := emitted.map encodeMeasurement })

/-- The period-length table exactly as the specification words it:
half-hour → 30 minutes, hour → 1 hour, day → 24 hours, week → 7 days
(in seconds). Stated from the spec, to be compared with the end-timestamp
computation of `readingFromTuple`, which is translated from the source. -/
def specPeriodLength : ReadingPeriod → Int
  | ReadingPeriod.halfHour => 30 * 60
  | ReadingPeriod.hour => 60 * 60
  | ReadingPeriod.day => 24 * 60 * 60
  | ReadingPeriod.week => 7 * 24 * 60 * 60

/-! ## Aggregation-map invariants -/

/-- The map's keys are strictly ascending (the `BTreeMap` iteration
invariant). -/
def SortedKeys (m : AggMap) : Prop := List.Pairwise (· < ·) (aggKeys m)

/-- Every measurement sits in the bucket of its own timestamp. -/
def TsOk (m : AggMap) : Prop := ∀ p ∈ m, ∀ x ∈ p.2, x.timestamp = p.1

/-- The two aggregation-map invariants together. -/
def AggInv (m : AggMap) : Prop := SortedKeys m ∧ TsOk m

/-! Concrete fixtures for witness evaluations: a device with one resolvable
and one unresolvable sensor, a resource map knowing `r1`, an api answering
two half-hour readings (values 3 then 0), and an api whose resource fetch
fails. -/

def testResource : Resource :=
  { id := "r1", classifier := some "electricity.consumption" }

def testResources : String → Option Resource :=
  fun s => if s = "r1" then some testResource else none

def testDevice : Device :=
  { id := "d1", hardware_id := "hw1",
    protocol := { protocol := "proto",
                  sensors := [⟨"p", "r1", "rt"⟩, ⟨"p", "rX", "rt"⟩] } }

def testApi : Api :=
  { getResources := Except.ok testResources
    getDevice := fun i => Except.ok (if i = "d1" then some testDevice else none)
    getDevices := Except.ok [testDevice]
    getReadings := fun _ => Except.ok
      [{ start := 0, «end» := 1800, value := 3 },
       { start := 1800, «end» := 3600, value := 0 }] }

def failApi : Api :=
  { getResources := Except.error { kind := ErrorKind.apiError, message := "boom" }
    getDevice := fun _ => Except.ok none
    getDevices := Except.ok []
    getReadings := fun _ => Except.ok [] }

/-- An api whose device-list fetch fails after a successful resource
fetch. -/
def failDevicesApi : Api :=
  { getResources := Except.ok testResources
    getDevice := fun _ => Except.ok none
    getDevices := Except.error { kind := ErrorKind.apiError, message := "down" }
    getReadings := fun _ => Except.ok [] }

/-- A reading-fetch oracle answering one half-hour reading of value 3. -/
def fetchW : String → Except Error (List Reading) :=
  fun _ => Except.ok [{ start := 0, «end» := 1800, value := 3 }]

/-- The measurement an all-devices `influx` run over `testApi` emits. -/
def mW : Measurement :=
  { name := "glowmarkt", timestamp := 0,
    tags := [("device", "d1"), ("hardware", "hw1"), ("resource", "r1"),
             ("classifier", "electricity.consumption")],
    fields := [("consumption", 3)] }

/-- The one stdout line of that run. -/
def lW : String :=
  String.append
    "glowmarkt,device=d1,hardware=hw1,resource=r1,"
    "classifier=electricity.consumption consumption=3 0"

/-- The output record of that run. -/
def outW : Output :=
  { stderrLines := [], emitted := [mW], stdoutLines := [lW] }

/-- The measurement a sensor loop over `fetchW`, resource map
`testResources` and device tags `[("device", "d1")]` inserts. -/
def mW2 : Measurement :=
  { name := "glowmarkt", timestamp := 0,
    tags := [("device", "d1"), ("resource", "r1"),
             ("classifier", "electricity.consumption")],
    fields := [("consumption", 3)] }

theorem aggInv_nil : AggInv [] := ⟨List.Pairwise.nil, by intro p hp; cases hp⟩

theorem mem_aggKeys_aggInsert (m : AggMap) (k : Int) (v : Measurement) :
    ∀ j ∈ aggKeys (aggInsert m k v), j = k ∨ j ∈ aggKeys m := by
  induction m with
  | nil =>
    intro j hj
    simp only [aggInsert, aggKeys, List.map_cons, List.map_nil,
      List.mem_cons, List.not_mem_nil, or_false] at hj
    exact Or.inl hj
  | cons p rest ih =>
    obtain ⟨a, vs⟩ := p
    intro j hj
    by_cases h1 : k < a
    · simp only [aggInsert, if_pos h1, aggKeys, List.map_cons,
        List.mem_cons] at hj ⊢
      tauto
    · by_cases h2 : k = a
      · simp only [aggInsert, if_neg h1, if_pos h2, aggKeys, List.map_cons,
          List.mem_cons] at hj ⊢
        tauto
      · simp only [aggInsert, if_neg h1, if_neg h2, aggKeys, List.map_cons,
          List.mem_cons] at hj ⊢
        rcases hj with h | h
        · exact Or.inr (Or.inl h)
        · rcases ih j h with h3 | h3
          · exact Or.inl h3
          · exact Or.inr (Or.inr h3)

theorem aggInsert_sortedKeys (m : AggMap) (k : Int) (v : Measurement)
    (h : SortedKeys m) : SortedKeys (aggInsert m k v) := by
  induction m with
  | nil =>
    simp [aggInsert, SortedKeys, aggKeys]
  | cons p rest ih =>
    obtain ⟨a, vs⟩ := p
    simp only [SortedKeys, aggKeys, List.map_cons, List.pairwise_cons] at h
    obtain ⟨ha, hrest⟩ := h
    by_cases h1 : k < a
    · simp only [SortedKeys, aggInsert, if_pos h1, aggKeys, List.map_cons,
        List.pairwise_cons]
      refine ⟨?_, ha, hrest⟩
      intro b hb
      rcases List.mem_cons.1 hb with h2 | h2
      · exact h2 ▸ h1
      · exact h1.trans (ha b h2)
    · by_cases h2 : k = a
      · simp only [SortedKeys, aggInsert, if_neg h1, if_pos h2, aggKeys,
          List.map_cons, List.pairwise_cons]
        exact ⟨ha, hrest⟩
      · simp only [SortedKeys, aggInsert, if_neg h1, if_neg h2, aggKeys,
          List.map_cons, List.pairwise_cons]
        refine ⟨?_, ih hrest⟩
        intro b hb
        rcases mem_aggKeys_aggInsert rest k v b hb with h3 | h3
        · subst h3; omega
        · exact ha b h3

theorem aggInsert_tsOk (m : AggMap) (k : Int) (v : Measurement)
    (hm : TsOk m) (hv : v.timestamp = k) : TsOk (aggInsert m k v) := by
  induction m with
  | nil =>
    intro p hp x hx
    simp only [aggInsert, List.mem_cons, List.not_mem_nil, or_false] at hp
    subst hp
    simp only [List.mem_cons, List.not_mem_nil, or_false] at hx
    subst hx
    exact hv
  | cons p rest ih =>
    obtain ⟨a, vs⟩ := p
    have hhead : ∀ x ∈ vs, x.timestamp = a :=
      fun x hx => hm (a, vs) (List.mem_cons_self _ _) x hx
    have hrest : TsOk rest := fun q hq x hx => hm q (List.mem_cons_of_mem _ hq) x hx
    by_cases h1 : k < a
    · intro q hq x hx
      simp only [aggInsert, if_pos h1, List.mem_cons] at hq
      rcases hq with h | h | h
      · subst h
        simp only [List.mem_cons, List.not_mem_nil, or_false] at hx
        subst hx; exact hv
      · subst h; exact hhead x hx
      · exact hrest q h x hx
    · by_cases h2 : k = a
      · intro q hq x hx
        simp only [aggInsert, if_neg h1, if_pos h2, List.mem_cons] at hq
        rcases hq with h | h
        · subst h
          rcases List.mem_append.1 hx with h3 | h3
          · exact hhead x h3
          · simp only [List.mem_cons, List.not_mem_nil, or_false] at h3
            subst h3; omega
        · exact hrest q h x hx
      · intro q hq x hx
        simp only [aggInsert, if_neg h1, if_neg h2, List.mem_cons] at hq
        rcases hq with h | h
        · subst h; exact hhead x hx
        · exact ih hrest q h x hx

theorem aggInsert_aggInv (m : AggMap) (k : Int) (v : Measurement)
    (h : AggInv m) (hv : v.timestamp = k) : AggInv (aggInsert m k v) :=
  ⟨aggInsert_sortedKeys m k v h.1, aggInsert_tsOk m k v h.2 hv⟩

theorem aggGet_eq_none_of_lt (m : AggMap) (k : Int)
    (h : ∀ j ∈ aggKeys m, k < j) : aggGet m k = none := by
  induction m with
  | nil => rfl
  | cons p rest ih =>
    obtain ⟨a, vs⟩ := p
    have hka : k < a := h a (by simp [aggKeys])
    simp only [aggGet, if_neg (by omega : ¬k = a)]
    exact ih fun j hj => h j (by simp [aggKeys] at hj ⊢; tauto)

/-- Inserting at key `k` appends to the bucket at `k` (creating it if
absent): equal-timestamp measurements land in the same bucket in arrival
order. -/
theorem aggGet_aggInsert_self (m : AggMap) (k : Int) (v : Measurement)
    (h : SortedKeys m) :
    aggGet (aggInsert m k v) k = some (((aggGet m k).getD []) ++ [v]) := by
  induction m with
  | nil => simp [aggInsert, aggGet]
  | cons p rest ih =>
    obtain ⟨a, vs⟩ := p
    simp only [SortedKeys, aggKeys, List.map_cons, List.pairwise_cons] at h
    obtain ⟨ha, hrest⟩ := h
    by_cases h1 : k < a
    · have hget : aggGet ((a, vs) :: rest) k = none := by
        apply aggGet_eq_none_of_lt
        intro j hj
        simp only [aggKeys, List.map_cons, List.mem_cons] at hj
        rcases hj with h | h
        · omega
        · exact h1.trans (ha j h)
      simp only [aggInsert, if_pos h1, hget, Option.getD_none, List.nil_append]
      simp [aggGet]
    · by_cases h2 : k = a
      · subst h2
        simp [aggInsert, if_neg h1, aggGet]
      · simp only [aggInsert, if_neg h1, if_neg h2, aggGet, if_neg h2]
        exact ih hrest

/-- Every measurement of a bucket after an insertion was already in some
bucket before, or is the inserted one. -/
theorem mem_aggInsert (m : AggMap) (k : Int) (v : Measurement) :
    ∀ p ∈ aggInsert m k v, ∀ x ∈ p.2,
      (∃ q ∈ m, x ∈ q.2) ∨ x = v := by
  induction m with
  | nil =>
    intro p hp x hx
    simp only [aggInsert, List.mem_cons, List.not_mem_nil, or_false] at hp
    subst hp
    simp only [List.mem_cons, List.not_mem_nil, or_false] at hx
    exact Or.inr hx
  | cons p0 rest ih =>
    obtain ⟨a, vs⟩ := p0
    intro p hp x hx
    by_cases h1 : k < a
    · simp only [aggInsert, if_pos h1, List.mem_cons] at hp
      rcases hp with h | h | h
      · subst h
        simp only [List.mem_cons, List.not_mem_nil, or_false] at hx
        exact Or.inr hx
      · subst h; exact Or.inl ⟨(a, vs), List.mem_cons_self _ _, hx⟩
      · exact Or.inl ⟨p, List.mem_cons_of_mem _ h, hx⟩
    · by_cases h2 : k = a
      · simp only [aggInsert, if_neg h1, if_pos h2, List.mem_cons] at hp
        rcases hp with h | h
        · subst h
          rcases List.mem_append.1 hx with h3 | h3
          · exact Or.inl ⟨(a, vs), List.mem_cons_self _ _, h3⟩
          · simp only [List.mem_cons, List.not_mem_nil, or_false] at h3
            exact Or.inr h3
        · exact Or.inl ⟨p, List.mem_cons_of_mem _ h, hx⟩
      · simp only [aggInsert, if_neg h1, if_neg h2, List.mem_cons] at hp
        rcases hp with h | h
        · subst h
          exact Or.inl ⟨(a, vs), List.mem_cons_self _ _, hx⟩
        · rcases ih p h x hx with ⟨q, hq, hxq⟩ | h3
          · exact Or.inl ⟨q, List.mem_cons_of_mem _ hq, hxq⟩
          · exact Or.inr h3

theorem addReadings_aggInv (tags : List (String × String))
    (resource : Resource) (readings : List Reading) :
    ∀ acc : AggMap, AggInv acc →
      AggInv (addReadings tags resource readings acc) := by
  induction readings with
  | nil => intro acc h; simpa [addReadings] using h
  | cons r rest ih =>
    intro acc h
    simp only [addReadings, List.foldl_cons] at ih ⊢
    exact ih _ (aggInsert_aggInv _ _ _ h rfl)

theorem mem_addReadings (tags : List (String × String)) (resource : Resource)
    (readings : List Reading) :
    ∀ (acc : AggMap) (p : Int × List Measurement) (x : Measurement),
      p ∈ addReadings tags resource readings acc → x ∈ p.2 →
      (∃ q ∈ acc, x ∈ q.2) ∨
        ∃ r ∈ readings, x = measurementFor tags resource r := by
  induction readings with
  | nil =>
    intro acc p x hp hx
    simp only [addReadings, List.foldl_nil] at hp
    exact Or.inl ⟨p, hp, hx⟩
  | cons r rest ih =>
    intro acc p x hp hx
    simp only [addReadings, List.foldl_cons] at hp
    rcases ih _ p x hp hx with ⟨q, hq, hxq⟩ | ⟨r0, hr0, hx0⟩
    · rcases mem_aggInsert acc r.start (measurementFor tags resource r) q hq x
          hxq with ⟨q1, hq1, hxq1⟩ | h
      · exact Or.inl ⟨q1, hq1, hxq1⟩
      · exact Or.inr ⟨r, List.mem_cons_self _ _, h⟩
    · exact Or.inr ⟨r0, List.mem_cons_of_mem _ hr0, hx0⟩

theorem processSensors_ok_aggInv (fetch : String → Except Error (List Reading))
    (resources : String → Option Resource)
    (devTags : List (String × String)) :
    ∀ (sensors : List DeviceSensor) (log : List String) (acc : AggMap)
      (log1 : List String) (acc1 : AggMap),
      processSensors fetch resources devTags sensors log acc =
        (log1, Except.ok acc1) →
      AggInv acc → AggInv acc1 := by
  intro sensors
  induction sensors with
  | nil =>
    intro log acc log1 acc1 h hi
    simp only [processSensors, Prod.mk.injEq, Except.ok.injEq] at h
    exact h.2 ▸ hi
  | cons sensor rest ih =>
    intro log acc log1 acc1 h hi
    simp only [processSensors] at h
    cases hres : resources sensor.resource_id with
    | none =>
      simp only [hres] at h
      exact ih log acc log1 acc1 h hi
    | some resource =>
      simp only [hres] at h
      cases hf : fetch resource.id with
      | error e => simp only [hf] at h; simp at h
      | ok readings =>
        simp only [hf] at h
        exact ih _ _ _ _ h (addReadings_aggInv _ resource readings acc hi)

/-- Every measurement in the aggregation after a sensor loop run either was
there before, or carries exactly the device tags extended by the tags of the
single resource of one of the processed sensors. -/
theorem mem_processSensors (fetch : String → Except Error (List Reading))
    (resources : String → Option Resource)
    (devTags : List (String × String)) :
    ∀ (sensors : List DeviceSensor) (log : List String) (acc : AggMap)
      (log1 : List String) (acc1 : AggMap),
      processSensors fetch resources devTags sensors log acc =
        (log1, Except.ok acc1) →
      ∀ p ∈ acc1, ∀ x ∈ p.2,
        (∃ q ∈ acc, x ∈ q.2) ∨
          ∃ sensor ∈ sensors, ∃ resource : Resource,
            resources sensor.resource_id = some resource ∧
            x.tags = tags_for_resource devTags resource := by
  intro sensors
  induction sensors with
  | nil =>
    intro log acc log1 acc1 h p hp x hx
    simp only [processSensors, Prod.mk.injEq, Except.ok.injEq] at h
    exact Or.inl ⟨p, h.2 ▸ hp, hx⟩
  | cons sensor rest ih =>
    intro log acc log1 acc1 h p hp x hx
    simp only [processSensors] at h
    cases hres : resources sensor.resource_id with
    | none =>
      simp only [hres] at h
      rcases ih log acc log1 acc1 h p hp x hx with h1 | ⟨s, hs, r, hr, ht⟩
      · exact Or.inl h1
      · exact Or.inr ⟨s, List.mem_cons_of_mem _ hs, r, hr, ht⟩
    | some resource =>
      simp only [hres] at h
      cases hf : fetch resource.id with
      | error e => simp only [hf] at h; simp at h
      | ok readings =>
        simp only [hf] at h
        rcases ih _ _ _ _ h p hp x hx with ⟨q, hq, hxq⟩ | ⟨s, hs, r, hr, ht⟩
        · rcases mem_addReadings _ resource readings acc q x hq hxq with
            h2 | ⟨r0, _, hx0⟩
          · exact Or.inl h2
          · refine Or.inr ⟨sensor, List.mem_cons_self _ _, resource, hres, ?_⟩
            rw [hx0]
            rfl
        · exact Or.inr ⟨s, List.mem_cons_of_mem _ hs, r, hr, ht⟩

theorem process_device_ok_aggInv (fetch : String → Except Error (List Reading))
    (resources : String → Option Resource) (device : Device)
    (log : List String) (acc : AggMap) (log1 : List String) (acc1 : AggMap)
    (h : process_device fetch resources device log acc =
      (log1, Except.ok acc1)) (hi : AggInv acc) : AggInv acc1 :=
  processSensors_ok_aggInv fetch resources (tags_for_device device)
    device.protocol.sensors log acc log1 acc1 h hi

theorem gatherDevices_ok_aggInv (fetch : String → Except Error (List Reading))
    (resources : String → Option Resource) :
    ∀ (devices : List Device) (log : List String) (acc : AggMap)
      (log1 : List String) (acc1 : AggMap),
      gatherDevices fetch resources devices log acc =
        (log1, Except.ok acc1) →
      AggInv acc → AggInv acc1 := by
  intro devices
  induction devices with
  | nil =>
    intro log acc log1 acc1 h hi
    simp only [gatherDevices, Prod.mk.injEq, Except.ok.injEq] at h
    exact h.2 ▸ hi
  | cons d rest ih =>
    intro log acc log1 acc1 h hi
    simp only [gatherDevices] at h
    cases hp : process_device fetch resources d log acc with
    | mk log2 r =>
      cases r with
      | error e => simp only [hp] at h; simp at h
      | ok acc2 =>
        simp only [hp] at h
        exact ih log2 acc2 log1 acc1 h
          (process_device_ok_aggInv fetch resources d log acc log2 acc2 hp hi)

theorem aggRemove_aggInv (m : AggMap) (k : Int) (h : AggInv m) :
    AggInv (aggRemove m k) := by
  constructor
  · exact h.1.sublist ((List.filter_sublist m).map Prod.fst)
  · intro p hp x hx
    exact h.2 p (List.mem_of_mem_filter hp) x hx

theorem foldl_preserves {α β : Type} (P : α → Prop) (f : α → β → α)
    (hf : ∀ a b, P a → P (f a b)) :
    ∀ (l : List β) (a : α), P a → P (List.foldl f a l) := by
  intro l
  induction l with
  | nil => intro a ha; exact ha
  | cons b rest ih => intro a ha; exact ih (f a b) (hf a b ha)

theorem strip_aggInv (m : AggMap) (h : AggInv m) : AggInv (strip m) := by
  unfold strip
  apply foldl_preserves AggInv _ _ _ _ h
  intro acc ts hacc
  dsimp only
  by_cases hz : ((aggGet acc ts).getD []).all
      (fun mm => mm.fields.all (fun f => f.2 == 0)) = true
  · rw [if_pos hz]; exact aggRemove_aggInv acc ts hacc
  · rw [if_neg hz]; exact hacc

/-- The stripping pass only removes buckets: its result is a sublist of the
input map. -/
theorem strip_sublist (m : AggMap) : List.Sublist (strip m) m := by
  unfold strip
  apply foldl_preserves (fun acc => List.Sublist acc m) _ _ _ _
    (List.Sublist.refl m)
  intro acc ts hacc
  dsimp only
  by_cases hz : ((aggGet acc ts).getD []).all
      (fun mm => mm.fields.all (fun f => f.2 == 0)) = true
  · rw [if_pos hz]
    exact (List.filter_sublist acc).trans hacc
  · rw [if_neg hz]; exact hacc

theorem strip_sortedKeys (m : AggMap) (h : SortedKeys m) :
    SortedKeys (strip m) :=
  h.sublist ((strip_sublist m).map Prod.fst)

/-- Concatenating the buckets of an invariant-respecting map in map order
yields measurements with non-decreasing timestamps. -/
theorem flatten_timestamp_pairwise (m : AggMap) (h : AggInv m) :
    List.Pairwise (fun a b : Measurement => a.timestamp ≤ b.timestamp)
      ((m.map Prod.snd).flatten) := by
  induction m with
  | nil => simp
  | cons p rest ih =>
    obtain ⟨k, vs⟩ := p
    obtain ⟨hs, ht⟩ := h
    simp only [SortedKeys, aggKeys, List.map_cons, List.pairwise_cons] at hs
    obtain ⟨hk, hrest⟩ := hs
    have hvs : ∀ x ∈ vs, x.timestamp = k :=
      fun x hx => ht (k, vs) (List.mem_cons_self _ _) x hx
    have htrest : TsOk rest :=
      fun q hq x hx => ht q (List.mem_cons_of_mem _ hq) x hx
    simp only [List.map_cons, List.flatten_cons]
    rw [List.pairwise_append]
    refine ⟨?_, ih ⟨hrest, htrest⟩, ?_⟩
    · apply List.pairwise_of_forall_mem_list
      intro a ha b hb
      rw [hvs a ha, hvs b hb]
    · intro a ha b hb
      rw [hvs a ha]
      rcases List.mem_flatten.1 hb with ⟨l, hl, hbl⟩
      rcases List.mem_map.1 hl with ⟨q, hq, rfl⟩
      rw [htrest q hq b hbl]
      exact le_of_lt (hk q.1 (List.mem_map.2 ⟨q, hq, rfl⟩))

theorem gatherPhase_ok_aggInv (api : Api)
    (resources : String → Option Resource) (dev : Option String)
    (log : List String) (errs : List String) (acc : AggMap)
    (h : gatherPhase api resources dev = (log, errs, Except.ok acc)) :
    AggInv acc := by
  unfold gatherPhase at h
  cases dev with
  | some id =>
    cases hd : api.getDevice id with
    | error e => simp only [hd] at h; simp at h
    | ok od =>
      cases od with
      | none =>
        simp only [hd, Prod.mk.injEq, Except.ok.injEq] at h
        exact h.2.2 ▸ aggInv_nil
      | some d =>
        simp only [hd] at h
        cases hp : process_device api.getReadings resources d [] [] with
        | mk log2 r =>
          cases r with
          | error e => simp only [hp] at h; simp at h
          | ok acc2 =>
            simp only [hp, Prod.mk.injEq, Except.ok.injEq] at h
            exact h.2.2 ▸
              process_device_ok_aggInv api.getReadings resources d [] []
                log2 acc2 hp aggInv_nil
  | none =>
    cases hd : api.getDevices with
    | error e => simp only [hd] at h; simp at h
    | ok devices =>
      simp only [hd] at h
      cases hp : gatherDevices api.getReadings resources devices [] [] with
      | mk log2 r =>
        cases r with
        | error e => simp only [hp] at h; simp at h
        | ok acc2 =>
          simp only [hp, Prod.mk.injEq, Except.ok.injEq] at h
          exact h.2.2 ▸
            gatherDevices_ok_aggInv api.getReadings resources devices [] []
              log2 acc2 hp aggInv_nil

/-- Characterization of a successful `influx` run: the emitted list is the
bucket concatenation of an invariant-respecting aggregation map (stripped
unless `no_strip`), and stdout prints exactly its encodings. -/
theorem influx_ok_shape (api : Api) (dev : Option String) (ns : Bool)
    (log : List String) (out : Output)
    (h : influx api dev ns = (log, Except.ok out)) :
    ∃ acc : AggMap, AggInv acc ∧
      out.emitted = (((if ns then acc else strip acc)).map Prod.snd).flatten ∧
      out.stdoutLines = out.emitted.map encodeMeasurement := by
  unfold influx at h
  cases hres : api.getResources with
  | error e => simp only [hres] at h; simp at h
  | ok resources =>
    simp only [hres] at h
    cases hg : gatherPhase api resources dev with
    | mk log2 rest2 =>
      obtain ⟨errs, r⟩ := rest2
      cases r with
      | error e => simp only [hg] at h; simp at h
      | ok acc =>
        simp only [hg, Prod.mk.injEq, Except.ok.injEq] at h
        refine ⟨acc, gatherPhase_ok_aggInv api resources dev log2 errs acc hg,
          ?_, ?_⟩
        · rw [← h.2]
        · rw [← h.2]

/-! ## Escaping round-trip -/

theorem unescChars_backslash (d : Char) (l : List Char) :
    unescChars ('\\' :: d :: l) = d :: unescChars l := by
  simp [unescChars]

theorem unescChars_other (c : Char) (h : c ≠ '\\') (l : List Char) :
    unescChars (c :: l) = c :: unescChars l := by
  cases l <;> simp [unescChars, h]

theorem splitSeg_nil (delim : Char) : splitSeg delim [] = ([], []) := rfl

theorem splitSeg_backslash (delim : Char) (d : Char) (l : List Char) :
    splitSeg delim ('\\' :: d :: l) =
      ('\\' :: d :: (splitSeg delim l).1, (splitSeg delim l).2) := by
  simp [splitSeg]

theorem splitSeg_at_delim (delim : Char) (hd : delim ≠ '\\') (l : List Char) :
    splitSeg delim (delim :: l) =
      ([], (splitSeg delim l).1 :: (splitSeg delim l).2) := by
  cases l <;> simp [splitSeg, hd]

theorem splitSeg_other (delim : Char) (c : Char) (h1 : c ≠ '\\')
    (h2 : c ≠ delim) (l : List Char) :
    splitSeg delim (c :: l) =
      (c :: (splitSeg delim l).1, (splitSeg delim l).2) := by
  cases l <;> simp [splitSeg, h1, h2]

theorem unescChars_escChars (l : List Char) : unescChars (escChars l) = l := by
  induction l with
  | nil => rfl
  | cons c rest ih =>
    by_cases hc : reservedChar c = true
    · rw [show escChars (c :: rest) = '\\' :: c :: escChars rest by
        simp [escChars, hc]]
      rw [unescChars_backslash, ih]
    · have hcb : c ≠ '\\' := by
        intro h; subst h; exact hc rfl
      rw [show escChars (c :: rest) = c :: escChars rest by simp [escChars, hc]]
      rw [unescChars_other c hcb, ih]

theorem splitSeg_escChars_append (delim : Char)
    (hd : reservedChar delim = true) :
    ∀ (v l : List Char),
      splitSeg delim (escChars v ++ l) =
        (escChars v ++ (splitSeg delim l).1, (splitSeg delim l).2) := by
  intro v
  induction v with
  | nil => intro l; rfl
  | cons c rest ih =>
    intro l
    by_cases hc : reservedChar c = true
    · rw [show escChars (c :: rest) = '\\' :: c :: escChars rest by
        simp [escChars, hc]]
      simp only [List.cons_append]
      rw [splitSeg_backslash, ih l]
    · have hcb : c ≠ '\\' := by
        intro h; subst h; exact hc rfl
      have hcd : c ≠ delim := by
        intro h; subst h; exact hc hd
      rw [show escChars (c :: rest) = c :: escChars rest by simp [escChars, hc]]
      simp only [List.cons_append]
      rw [splitSeg_other delim c hcb hcd, ih l]

theorem splitSeg_clean_append (delim : Char)
    (hd : reservedChar delim = true) :
    ∀ (k l : List Char), (∀ c ∈ k, reservedChar c = false) →
      splitSeg delim (k ++ l) =
        (k ++ (splitSeg delim l).1, (splitSeg delim l).2) := by
  intro k
  induction k with
  | nil => intro l _; rfl
  | cons c rest ih =>
    intro l hk
    have hc : reservedChar c = false := hk c (List.mem_cons_self _ _)
    have hcb : c ≠ '\\' := by
      intro h; subst h; simp [reservedChar] at hc
    have hcd : c ≠ delim := by
      intro h; subst h; rw [hd] at hc; cases hc
    simp only [List.cons_append]
    rw [splitSeg_other delim c hcb hcd, ih l fun c hc => hk c (List.mem_cons_of_mem _ hc)]

/-- The key lemma for round-tripping: the split on unescaped commas walks
over a whole encoded tag pair without cutting it, provided the tag key
contains no reserved character. -/
theorem splitSeg_comma_encodeTagPair (p : String × String)
    (hk : ∀ c ∈ p.1.toList, reservedChar c = false) (l : List Char) :
    splitSeg ',' (encodeTagPair p ++ l) =
      (encodeTagPair p ++ (splitSeg ',' l).1, (splitSeg ',' l).2) := by
  have heq : encodeTagPair p ++ l =
      p.1.toList ++ ('=' :: (escChars p.2.toList ++ l)) := by
    simp [encodeTagPair, List.append_assoc]
  rw [heq, splitSeg_clean_append ',' rfl p.1.toList _ hk]
  have h1 : splitSeg ',' ('=' :: (escChars p.2.toList ++ l)) =
      ('=' :: (escChars p.2.toList ++ (splitSeg ',' l).1),
        (splitSeg ',' l).2) := by
    rw [splitSeg_other ',' '=' (by decide) (by decide),
      splitSeg_escChars_append ',' rfl p.2.toList l]
  rw [h1]
  simp [encodeTagPair, List.append_assoc]

theorem parseTagPair_encodeTagPair (p : String × String)
    (hk : ∀ c ∈ p.1.toList, reservedChar c = false) :
    parseTagPair (encodeTagPair p) = p := by
  have h0 : splitSeg '=' (escChars p.2.toList) = (escChars p.2.toList, []) := by
    have := splitSeg_escChars_append '=' rfl p.2.toList []
    simpa [splitSeg_nil] using this
  have h1 : splitSeg '=' ('=' :: escChars p.2.toList) =
      ([], [escChars p.2.toList]) := by
    rw [splitSeg_at_delim '=' (by decide) _, h0]
  have h2 : splitSeg '=' (encodeTagPair p) = (p.1.toList, [escChars p.2.toList]) := by
    have := splitSeg_clean_append '=' rfl p.1.toList
      ('=' :: escChars p.2.toList) hk
    rw [encodeTagPair, this, h1]
    simp
  rw [parseTagPair, h2]
  simp only [unescChars_escChars]
  rfl

/-- Round trip of the whole comma-separated tag list: parsing the encoding
recovers every tag value, however many reserved characters it contains. -/
theorem parseTags_encodeTagsChars :
    ∀ tags : List (String × String), tags ≠ [] →
      (∀ p ∈ tags, ∀ c ∈ p.1.toList, reservedChar c = false) →
      parseTags (encodeTagsChars tags) = tags := by
  intro tags
  induction tags with
  | nil => intro h; cases h rfl
  | cons p rest ih =>
    intro _ hclean
    have hp : ∀ c ∈ p.1.toList, reservedChar c = false :=
      hclean p (List.mem_cons_self _ _)
    cases rest with
    | nil =>
      have h0 : splitSeg ',' (encodeTagPair p) = (encodeTagPair p, []) := by
        have := splitSeg_comma_encodeTagPair p hp []
        simpa [splitSeg_nil] using this
      simp only [encodeTagsChars, parseTags, h0, List.map_cons, List.map_nil]
      rw [parseTagPair_encodeTagPair p hp]
    | cons q rest2 =>
      have hrest : ∀ r ∈ q :: rest2, ∀ c ∈ r.1.toList, reservedChar c = false :=
        fun r hr => hclean r (List.mem_cons_of_mem _ hr)
      have ihr := ih (by simp) hrest
      have h1 : splitSeg ',' (encodeTagsChars (p :: q :: rest2)) =
          (encodeTagPair p,
            (splitSeg ',' (encodeTagsChars (q :: rest2))).1 ::
              (splitSeg ',' (encodeTagsChars (q :: rest2))).2) := by
        show splitSeg ','
            (encodeTagPair p ++ ',' :: encodeTagsChars (q :: rest2)) = _
        rw [splitSeg_comma_encodeTagPair p hp,
          splitSeg_at_delim ',' (by decide)]
        simp
      rw [parseTags, h1]
      simp only [List.map_cons]
      rw [parseTagPair_encodeTagPair p hp]
      have h2 : parseTags (encodeTagsChars (q :: rest2)) = q :: rest2 := ihr
      rw [parseTags] at h2
      cases h3 : splitSeg ',' (encodeTagsChars (q :: rest2)) with
      | mk s ss =>
        rw [h3] at h2
        simp only [List.map_cons] at h2 ⊢
        exact congrArg _ h2

/-! ## Reading-conversion lemmas -/

theorem odt_add_eq_some (t len e : Int) (h : odt_add t len = some e) :
    e = t + len := by
  unfold odt_add at h
  by_cases hc : unixTsMin ≤ t + len ∧ t + len ≤ unixTsMax
  · rw [if_pos hc] at h
    exact (Option.some.injEq _ _ ▸ h).symm
  · rw [if_neg hc] at h
    exact Option.noConfusion h

theorem periodDuration_eq_spec (p : ReadingPeriod) :
    periodDuration p = specPeriodLength p := by
  cases p <;> rfl

/-- C1 (code bug record): on the spec's `[0, 5, 0]` example — an all-zero
bucket, then a non-zero bucket, then a trailing all-zero bucket — the
source's stripping loop (`src/main.rs:219-231`, which scans every timestamp
descending and has no `break`) removes the leading all-zero bucket as well,
leaving `[5]`, where the documented behavior ("strip trailing zero
readings") requires `[0, 5]`. -/
theorem strip_removes_non_trailing_zero_bucket :
    strip [(0, [{ name := "glowmarkt", timestamp := 0, tags := [],
                  fields := [("value", 0)] }]),
           (1, [{ name := "glowmarkt", timestamp := 1, tags := [],
                  fields := [("value", 5)] }]),
           (2, [{ name := "glowmarkt", timestamp := 2, tags := [],
                  fields := [("value", 0)] }])] =
      [(1, [{ name := "glowmarkt", timestamp := 1, tags := [],
              fields := [("value", 5)] }])] := by
  decide

/-- C2: every `Reading` produced by the reading fetcher's conversion loop
satisfies `end = start + length(period)` where `length` is the fixed table
half-hour → 30 min, hour → 1 h, day → 24 h, week → 7 d
(`specPeriodLength`, stated from the spec). -/
theorem reading_end_eq_start_plus_period :
    ∀ (period : ReadingPeriod) (data : List (Int × ℚ)) (rs : List Reading),
      readingsOfData period data = some rs →
      ∀ r ∈ rs, r.«end» = r.start + specPeriodLength period := by
  intro period data
  induction data with
  | nil =>
    intro rs h r hr
    simp only [readingsOfData, Option.some.injEq] at h
    subst h
    cases hr
  | cons t rest ih =>
    intro rs h r hr
    simp only [readingsOfData] at h
    cases h1 : readingFromTuple period t with
    | none => simp only [h1] at h; exact Option.noConfusion h
    | some r0 =>
      cases h2 : readingsOfData period rest with
      | none => simp only [h1, h2] at h; exact Option.noConfusion h
      | some rs0 =>
        simp only [h1, h2, Option.some.injEq] at h
        subst h
        rcases List.mem_cons.1 hr with h3 | h3
        · subst h3
          unfold readingFromTuple at h1
          cases h4 : from_unix_timestamp t.1 with
          | none => simp only [h4] at h1; exact Option.noConfusion h1
          | some s =>
            simp only [h4] at h1
            cases h5 : odt_add s (periodDuration period) with
            | none => simp only [h5] at h1; exact Option.noConfusion h1
            | some e =>
              simp only [h5, Option.some.injEq] at h1
              rw [← h1]
              show e = s + specPeriodLength period
              rw [odt_add_eq_some s _ e h5, periodDuration_eq_spec]
        · exact ih rs0 h2 r h3

theorem reading_end_eq_start_plus_period_witness :
    ({ start := 100, «end» := 1900, value := 3 } : Reading).«end» =
      ({ start := 100, «end» := 1900, value := 3 } : Reading).start +
        specPeriodLength ReadingPeriod.halfHour :=
  reading_end_eq_start_plus_period ReadingPeriod.halfHour [(100, 3)]
    [{ start := 100, «end» := 1900, value := 3 }] (by decide)
    { start := 100, «end» := 1900, value := 3 } (by decide)

/-- C3: the field key of every measurement built by the pipeline is the
table entry of the resource's classifier when the classifier is in the
table, and the literal "value" for classifiers absent from the table or
absent altogether; the derivation is a total function, and each measurement
carries exactly that one field. -/
theorem measurement_field_key_from_classifier :
    (∀ (c f : String), classifierFieldTable.lookup c = some f →
        field_for_classifier (some c) = f)
  ∧ (∀ c : String, classifierFieldTable.lookup c = none →
        field_for_classifier (some c) = "value")
  ∧ field_for_classifier none = "value"
  ∧ (∀ (tags : List (String × String)) (resource : Resource)
        (reading : Reading),
        (measurementFor tags resource reading).fields =
          [(field_for_classifier resource.classifier, reading.value)]) := by
  refine ⟨?_, ?_, rfl, ?_⟩
  · intro c f h; simp [field_for_classifier, h]
  · intro c h; simp [field_for_classifier, h]
  · intro tags resource reading; rfl

theorem measurement_field_key_from_classifier_witness :
    field_for_classifier (some "electricity.consumption") = "consumption" :=
  measurement_field_key_from_classifier.1 "electricity.consumption"
    "consumption" (by decide)

/-- C4: inserting a measurement appends it to the bucket of exactly its
timestamp key (equal timestamps share a bucket, in arrival order); the maps
produced by the gathering loop, stripped or not, keep strictly ascending
keys; and a successful run prints one line per surviving measurement with
non-decreasing timestamps. -/
theorem aggregation_stable_and_output_ordered :
    (∀ (m : AggMap) (k : Int) (v : Measurement), SortedKeys m →
        aggGet (aggInsert m k v) k = some (((aggGet m k).getD []) ++ [v]))
  ∧ (∀ (fetch : String → Except Error (List Reading))
        (resources : String → Option Resource) (devices : List Device)
        (log1 : List String) (acc1 : AggMap),
        gatherDevices fetch resources devices [] [] =
          (log1, Except.ok acc1) →
        SortedKeys acc1 ∧ SortedKeys (strip acc1))
  ∧ (∀ (api : Api) (dev : Option String) (ns : Bool) (log : List String)
        (out : Output),
        influx api dev ns = (log, Except.ok out) →
        List.Pairwise (fun a b : Measurement => a.timestamp ≤ b.timestamp)
          out.emitted ∧
        out.stdoutLines = out.emitted.map encodeMeasurement) := by
  refine ⟨fun m k v h => aggGet_aggInsert_self m k v h, ?_, ?_⟩
  · intro fetch resources devices log1 acc1 h
    have hi := gatherDevices_ok_aggInv fetch resources devices [] [] log1
      acc1 h aggInv_nil
    exact ⟨hi.1, strip_sortedKeys acc1 hi.1⟩
  · intro api dev ns log out h
    obtain ⟨acc, hinv, hemit, hstdout⟩ := influx_ok_shape api dev ns log out h
    refine ⟨?_, hstdout⟩
    rw [hemit]
    cases ns with
    | true =>
      rw [if_pos rfl]
      exact flatten_timestamp_pairwise acc hinv
    | false =>
      rw [if_neg (by simp)]
      exact flatten_timestamp_pairwise _ (strip_aggInv acc hinv)

theorem aggregation_stable_and_output_ordered_witness :
    (aggGet (aggInsert [(2, [mW])] 2 mW2) 2 =
      some (((aggGet [(2, [mW])] 2).getD []) ++ [mW2]))
  ∧ (List.Pairwise (fun a b : Measurement => a.timestamp ≤ b.timestamp)
      outW.emitted ∧
     outW.stdoutLines = outW.emitted.map encodeMeasurement) :=
  ⟨aggregation_stable_and_output_ordered.1 [(2, [mW])] 2 mW2
      (by simp [SortedKeys, aggKeys]),
   aggregation_stable_and_output_ordered.2.2 testApi none false ["r1"] outW
      (by rfl)⟩

/-- C5: error atomicity of a full-account run. A failed resource fetch, and
likewise a failed device-list fetch, makes the whole run fail with that
error before any reading fetch; a failed reading fetch aborts the sensor
loop right there; a device whose processing fails stops the device loop
with that error and fetch log, untouched by the remaining devices; and the
error (with the fetch log at failure time) propagates to the run's result,
which then carries no output. -/
theorem full_run_error_propagation :
    (∀ (api : Api) (ns : Bool) (e : Error),
        api.getResources = Except.error e →
        influx api none ns = ([], Except.error e))
  ∧ (∀ (api : Api) (ns : Bool) (resources : String → Option Resource)
        (e : Error),
        api.getResources = Except.ok resources →
        api.getDevices = Except.error e →
        influx api none ns = ([], Except.error e))
  ∧ (∀ (fetch : String → Except Error (List Reading))
        (resources : String → Option Resource)
        (devTags : List (String × String)) (sensor : DeviceSensor)
        (rest : List DeviceSensor) (log : List String) (acc : AggMap)
        (resource : Resource) (e : Error),
        resources sensor.resource_id = some resource →
        fetch resource.id = Except.error e →
        processSensors fetch resources devTags (sensor :: rest) log acc =
          (log ++ [resource.id], Except.error e))
  ∧ (∀ (fetch : String → Except Error (List Reading))
        (resources : String → Option Resource) (d : Device)
        (rest : List Device) (log : List String) (acc : AggMap)
        (log1 : List String) (e : Error),
        process_device fetch resources d log acc = (log1, Except.error e) →
        gatherDevices fetch resources (d :: rest) log acc =
          (log1, Except.error e))
  ∧ (∀ (api : Api) (ns : Bool) (resources : String → Option Resource)
        (devices : List Device) (log : List String) (e : Error),
        api.getResources = Except.ok resources →
        api.getDevices = Except.ok devices →
        gatherDevices api.getReadings resources devices [] [] =
          (log, Except.error e) →
        influx api none ns = (log, Except.error e)) := by
  refine ⟨?_, ?_, ?_, ?_, ?_⟩
  · intro api ns e h
    simp [influx, h]
  · intro api ns resources e h1 h2
    simp [influx, gatherPhase, h1, h2]
  · intro fetch resources devTags sensor rest log acc resource e h1 h2
    simp [processSensors, h1, h2]
  · intro fetch resources d rest log acc log1 e h
    simp [gatherDevices, h]
  · intro api ns resources devices log e h1 h2 h3
    simp [influx, gatherPhase, h1, h2, h3]

theorem full_run_error_propagation_witness :
    influx failApi none false =
      ([], Except.error { kind := ErrorKind.apiError, message := "boom" })
  ∧ influx failDevicesApi none false =
      ([], Except.error { kind := ErrorKind.apiError, message := "down" }) :=
  ⟨full_run_error_propagation.1 failApi false
      { kind := ErrorKind.apiError, message := "boom" } rfl,
   full_run_error_propagation.2.1 failDevicesApi false testResources
      { kind := ErrorKind.apiError, message := "down" } rfl rfl⟩

/-- C6: in single-device mode an unknown device id is non-fatal: the run
reports the id on stderr, issues no reading fetch, emits no measurement and
returns success. -/
theorem unknown_device_reported_nonfatal :
    ∀ (api : Api) (id : String) (ns : Bool)
      (resources : String → Option Resource),
      api.getResources = Except.ok resources →
      api.getDevice id = Except.ok none →
      influx api (some id) ns =
        ([], Except.ok { stderrLines := ["Error: Unknown device " ++ id],
                         emitted := [], stdoutLines := [] }) := by
  intro api id ns resources h1 h2
  cases ns <;> simp [influx, gatherPhase, h1, h2, strip, aggKeys]

theorem unknown_device_reported_nonfatal_witness :
    influx testApi (some "nope") false =
      ([], Except.ok { stderrLines := ["Error: Unknown device " ++ "nope"],
                       emitted := [], stdoutLines := [] }) :=
  unknown_device_reported_nonfatal testApi "nope" false testResources rfl rfl

/-- C7: copy-on-extend tag derivation. Resource-level tags are the device
tag list extended (on the right) by tags mentioning only that resource; and
every measurement placed in the aggregation by a sensor loop run either
pre-existed or carries exactly the device tags extended by the tags of the
single resource of one of the loop's sensors — never a sibling's tags. -/
theorem resource_tags_copy_on_extend :
    (∀ (tags : List (String × String)) (r : Resource),
        tags_for_resource tags r =
          tags ++ ([("resource", r.id)] ++
            (match r.classifier with
             | some c => [("classifier", c)]
             | none => [])))
  ∧ (∀ (fetch : String → Except Error (List Reading))
        (resources : String → Option Resource)
        (devTags : List (String × String)) (sensors : List DeviceSensor)
        (log : List String) (acc : AggMap) (log1 : List String)
        (acc1 : AggMap),
        processSensors fetch resources devTags sensors log acc =
          (log1, Except.ok acc1) →
        ∀ p ∈ acc1, ∀ x ∈ p.2,
          (∃ q ∈ acc, x ∈ q.2) ∨
            ∃ sensor ∈ sensors, ∃ resource : Resource,
              resources sensor.resource_id = some resource ∧
              x.tags = tags_for_resource devTags resource) := by
  constructor
  · intro tags r
    simp [tags_for_resource, List.append_assoc]
  · intro fetch resources devTags sensors log acc log1 acc1 h
    exact mem_processSensors fetch resources devTags sensors log acc log1
      acc1 h

theorem resource_tags_copy_on_extend_witness :
    (∃ q ∈ ([] : AggMap), mW2 ∈ q.2) ∨
      ∃ sensor ∈ [(⟨"p", "r1", "rt"⟩ : DeviceSensor)], ∃ resource : Resource,
        testResources sensor.resource_id = some resource ∧
        mW2.tags = tags_for_resource [("device", "d1")] resource :=
  resource_tags_copy_on_extend.2 fetchW testResources [("device", "d1")]
    [⟨"p", "r1", "rt"⟩] [] [] ["r1"] [(0, [mW2])] (by rfl)
    (0, [mW2]) (by decide) mW2 (by decide)

/-- C8: the escaping of reserved characters (comma, space, equals sign, and
the escape character itself) in tag values round-trips: unescaping recovers
any value, and parsing the encoded comma-separated tag pair list recovers
every tag exactly, whatever reserved characters the values contain,
provided the tag keys themselves are free of reserved characters. -/
theorem tag_value_escaping_round_trip :
    (∀ v : String, unescChars (escChars v.toList) = v.toList)
  ∧ (∀ tags : List (String × String), tags ≠ [] →
        (∀ p ∈ tags, ∀ c ∈ p.1.toList, reservedChar c = false) →
        parseTags (encodeTagsChars tags) = tags) :=
  ⟨fun v => unescChars_escChars v.toList, parseTags_encodeTagsChars⟩

theorem tag_value_escaping_round_trip_witness :
    parseTags (encodeTagsChars [("site", "a b,c=d")]) = [("site", "a b,c=d")] :=
  tag_value_escaping_round_trip.2 [("site", "a b,c=d")] (by decide) (by decide)

/-- C9: a sensor whose resource id is absent from the resolved resource map
is skipped silently: the sensor loop continues with the remaining sensors,
same fetch log (no fetch issued), same aggregation (no measurement), and no
error is raised. -/
theorem unknown_resource_sensor_skipped :
    ∀ (fetch : String → Except Error (List Reading))
      (resources : String → Option Resource)
      (devTags : List (String × String)) (sensor : DeviceSensor)
      (rest : List DeviceSensor) (log : List String) (acc : AggMap),
      resources sensor.resource_id = none →
      processSensors fetch resources devTags (sensor :: rest) log acc =
        processSensors fetch resources devTags rest log acc := by
  intro fetch resources devTags sensor rest log acc h
  simp [processSensors, h]

theorem unknown_resource_sensor_skipped_witness :
    processSensors fetchW testResources [] [⟨"p", "rX", "rt"⟩] [] [] =
      processSensors fetchW testResources [] [] [] [] :=
  unknown_resource_sensor_skipped fetchW testResources []
    ⟨"p", "rX", "rt"⟩ [] [] [] rfl

end Glowmarkt
